import Mathlib

/-!
Verification development for the layered-system repository: a manager for a
tree of bootable differencing virtual disks (VHDX).  The repository ships the
TypeScript UI (`src/App.tsx` and variants, `src/types.ts`, components) and the
design documents (`PLAN.md`, the Chinese design doc); the Rust backend that
the UI invokes is not part of the source tree.  Definitions for the UI are
translated from the TypeScript source; definitions for backend behaviour are
modelled from the specification, as marked in their doc comments.
-/

namespace LayeredSystem

/-- Status classification of a node, from `src/types.ts` (`NodeStatus`). -/
inductive NodeStatus where
  | normal
  | missing_file
  | missing_parent
  | missing_bcd
  | mounted
  | error
deriving DecidableEq, Repr

/-- A node of the disk tree, from `src/types.ts` (`Node`).  `created_at` is a
string timestamp in the source; the UI only ever uses it through
`new Date(x).getTime()`, so it is embedded as the numeric timestamp. -/
structure Node where
  id : String
  parent_id : Option String
  name : String
  path : String
  bcd_guid : Option String
  desc : Option String
  created_at : Nat
  status : NodeStatus
  boot_files_ready : Bool
deriving DecidableEq, Repr

/-! ## Output Parser: boot-entry resolution (C4)

Modelled from the spec: the Rust Output Parser is not under `src/`.  Spec
§4.2: from a full boot-entry enumeration, find the entry whose device
reference is the virtual-disk file path of interest (exact, case-insensitive
path match); zero matches is a valid non-error outcome, more than one match
is a `ParseError`.  The enumeration text is modelled at the level of the
entries it lists: one `guid` and one `device` path per entry. -/

/-- A boot entry as recovered from the boot-configuration enumeration:
its identifier and the disk path its device reference points at. -/
structure BcdEntry where
  guid : String
  device : String
deriving DecidableEq, Repr

/-- Error raised by the Output Parser; `ambiguousMatch` carries how many
entries matched the requested disk path. -/
inductive ParseError where
  | ambiguousMatch (count : Nat)
deriving DecidableEq, Repr

/-- Lower-casing of a string, character by character (an executable unfolding
of `String.toLower`). -/
def toLowerStr (s : String) : String :=
  ⟨s.data.map Char.toLower⟩

/-- Modelled from the spec: exact, case-insensitive path comparison between a
boot entry's device reference and a disk path. -/
def matchesDisk (e : BcdEntry) (diskPath : String) : Bool :=
  toLowerStr e.device == toLowerStr diskPath

/-- Modelled from the spec: boot-entry resolution.  Zero matching entries is
the valid outcome `none`; exactly one match yields that entry's identifier;
several matches are an ambiguity error, never silently the first match. -/
def resolveBootEntry (entries : List BcdEntry) (diskPath : String) :
    Except ParseError (Option String) :=
  match entries.filter (fun e => matchesDisk e diskPath) with
  | [] => .ok none
  | [e] => .ok (some e.guid)
  | l => .error (.ambiguousMatch l.length)

/-- C4: boot-entry resolution returns "no entry" (a valid non-error outcome)
when zero entries reference the disk path, the unique identifier when exactly
one entry matches, and fails with a `ParseError` (never a silent first match)
when more than one entry matches. -/
theorem resolveBootEntry_trichotomy (entries : List BcdEntry) (diskPath : String) :
    (entries.filter (fun e => matchesDisk e diskPath) = [] →
      resolveBootEntry entries diskPath = .ok none) ∧
    (∀ e, entries.filter (fun e => matchesDisk e diskPath) = [e] →
      resolveBootEntry entries diskPath = .ok (some e.guid)) ∧
    (2 ≤ (entries.filter (fun e => matchesDisk e diskPath)).length →
      resolveBootEntry entries diskPath =
        .error (.ambiguousMatch (entries.filter (fun e => matchesDisk e diskPath)).length)) := by
  refine ⟨?_, ?_, ?_⟩
  · intro h
    simp [resolveBootEntry, h]
  · intro e h
    simp [resolveBootEntry, h]
  · intro h
    rcases hf : entries.filter (fun e => matchesDisk e diskPath) with _ | ⟨a, _ | ⟨b, l⟩⟩
    · rw [hf] at h; simp at h
    · rw [hf] at h; simp at h
    · simp [resolveBootEntry, hf]

/-- Concrete check of `resolveBootEntry_trichotomy` on all three branches:
no entry for an unreferenced path, the unique identifier on a single
case-insensitive match, and an ambiguity error on a duplicated device path. -/
theorem resolveBootEntry_trichotomy_witness :
    resolveBootEntry [] "d:\\x.vhdx" = .ok none ∧
    resolveBootEntry [⟨"guid1", "C:\\vm\\base.vhdx"⟩] "c:\\vm\\BASE.vhdx" = .ok (some "guid1") ∧
    resolveBootEntry [⟨"guid1", "p.vhdx"⟩, ⟨"guid2", "P.VHDX"⟩] "p.vhdx" =
      .error (.ambiguousMatch 2) := by
  refine ⟨(resolveBootEntry_trichotomy [] "d:\\x.vhdx").1 (by decide), ?_, ?_⟩
  · exact (resolveBootEntry_trichotomy [⟨"guid1", "C:\\vm\\base.vhdx"⟩] "c:\\vm\\BASE.vhdx").2.1
      ⟨"guid1", "C:\\vm\\base.vhdx"⟩ (by decide)
  · have h := (resolveBootEntry_trichotomy
      [⟨"guid1", "p.vhdx"⟩, ⟨"guid2", "P.VHDX"⟩] "p.vhdx").2.2 (by decide)
    simpa using h

/-! ## Reconciler (C7)

Modelled from the spec: the Rust Reconciler is not under `src/`.  Spec §4.5:
`scan` recomputes, for every persisted node, its `status` by checking file
existence at `path`, physical parent-chain agreement with `parent_id`'s
recorded path, and that `bcd_guid`, if set, still resolves to a boot entry;
precedence `missing_file` > `missing_parent` > `missing_bcd` > `normal`;
the scan never deletes rows and only updates the derived `status` field.
Physical reality is abstracted as an environment of query functions. -/

/-- Physical environment the Reconciler checks against: file existence,
the physical parent-chain of a disk file, and boot-entry existence. -/
structure ReconEnv where
  fileExists : String → Bool
  parentChainOf : String → Option String
  bcdExists : String → Bool

/-- Modelled from the spec: a node's parent check passes when it has no
parent, and otherwise when the physical parent chain of its backing file
resolves to the recorded path of the parent node. -/
def parentMatches (env : ReconEnv) (nodes : List Node) (n : Node) : Bool :=
  match n.parent_id with
  | none => true
  | some pid =>
    match nodes.find? (fun m => m.id == pid) with
    | none => false
    | some p => env.parentChainOf n.path == some p.path

/-- Modelled from the spec: the boot-entry check passes when `bcd_guid` is
unset, and otherwise when the identifier still resolves to a boot entry. -/
def bcdStillThere (env : ReconEnv) (n : Node) : Bool :=
  match n.bcd_guid with
  | none => true
  | some g => env.bcdExists g

/-- Modelled from the spec: derived status with the precedence
`missing_file` > `missing_parent` > `missing_bcd` > `normal`. -/
def computeStatus (fileOk parentOk bcdOk : Bool) : NodeStatus :=
  if fileOk = false then .missing_file
  else if parentOk = false then .missing_parent
  else if bcdOk = false then .missing_bcd
  else .normal

/-- Status the Reconciler assigns to node `n` given environment `env`. -/
def statusOf (env : ReconEnv) (nodes : List Node) (n : Node) : NodeStatus :=
  computeStatus (env.fileExists n.path) (parentMatches env nodes n) (bcdStillThere env n)

/-- Modelled from the spec: a Reconciler scan recomputes every node's
`status` and touches nothing else. -/
def scan (env : ReconEnv) (nodes : List Node) : List Node :=
  nodes.map (fun n => { n with status := statusOf env nodes n })

/-- Every field of a node except the derived `status`. -/
def stripStatus (n : Node) :
    String × Option String × String × String × Option String × Option String × Nat × Bool :=
  (n.id, n.parent_id, n.name, n.path, n.bcd_guid, n.desc, n.created_at, n.boot_files_ready)

/-- C7: a Reconciler scan recomputes only the derived status field, with the
precedence `missing_file` > `missing_parent` > `missing_bcd` when several
checks fail; a node whose backing file was removed out-of-band is reported as
`missing_file` but is never deleted from the store by the scan. -/
theorem scan_only_status_with_precedence (env : ReconEnv) (nodes : List Node) :
    (scan env nodes).map stripStatus = nodes.map stripStatus ∧
    (∀ n ∈ nodes, { n with status := statusOf env nodes n } ∈ scan env nodes) ∧
    (∀ n ∈ nodes, env.fileExists n.path = false → statusOf env nodes n = .missing_file) ∧
    (∀ n ∈ nodes, env.fileExists n.path = true → parentMatches env nodes n = false →
      statusOf env nodes n = .missing_parent) ∧
    (∀ n ∈ nodes, env.fileExists n.path = true → parentMatches env nodes n = true →
      bcdStillThere env n = false → statusOf env nodes n = .missing_bcd) ∧
    (∀ n ∈ nodes, env.fileExists n.path = true → parentMatches env nodes n = true →
      bcdStillThere env n = true → statusOf env nodes n = .normal) := by
  refine ⟨?_, ?_, ?_, ?_, ?_, ?_⟩
  · simp [scan, stripStatus]
  · intro n hn
    exact List.mem_map.2 ⟨n, hn, rfl⟩
  · intro n _ h
    simp [statusOf, computeStatus, h]
  · intro n _ h1 h2
    simp [statusOf, computeStatus, h1, h2]
  · intro n _ h1 h2 h3
    simp [statusOf, computeStatus, h1, h2, h3]
  · intro n _ h1 h2 h3
    simp [statusOf, computeStatus, h1, h2, h3]

/-- Concrete check of `scan_only_status_with_precedence`: a node whose
backing file is gone (and whose parent and boot-entry checks would also
fail) is reported `missing_file` and survives the scan unchanged apart from
its status. -/
theorem scan_only_status_with_precedence_witness :
    statusOf ⟨fun _ => false, fun _ => none, fun _ => false⟩
      [⟨"a", none, "base", "base/0001-base.vhdx", some "g", none, 5, .normal, true⟩]
      ⟨"a", none, "base", "base/0001-base.vhdx", some "g", none, 5, .normal, true⟩ =
      .missing_file ∧
    (scan ⟨fun _ => false, fun _ => none, fun _ => false⟩
      [⟨"a", none, "base", "base/0001-base.vhdx", some "g", none, 5, .normal, true⟩]).map
        stripStatus =
      [stripStatus ⟨"a", none, "base", "base/0001-base.vhdx", some "g", none, 5, .normal, true⟩] := by
  constructor
  · exact (scan_only_status_with_precedence ⟨fun _ => false, fun _ => none, fun _ => false⟩
      [⟨"a", none, "base", "base/0001-base.vhdx", some "g", none, 5, .normal, true⟩]).2.2.1
      ⟨"a", none, "base", "base/0001-base.vhdx", some "g", none, 5, .normal, true⟩
      (by simp) rfl
  · exact (scan_only_status_with_precedence ⟨fun _ => false, fun _ => none, fun _ => false⟩
      [⟨"a", none, "base", "base/0001-base.vhdx", some "g", none, 5, .normal, true⟩]).1

/-! ## Node Store: sequence numbers and path uniqueness (C5)

Modelled from the spec: the Rust Node Store is not under `src/`.  Spec §4.4:
`begin_node` reserves a sequence number and computed file path;
`abort_node` discards the reservation but the sequence number is still
considered consumed — never reused; filenames follow `<seq>-<slug>.vhdx` and
the counter is the sole source of filename collision-freedom.  The filename
is modelled as the determining pair (sequence, slug). -/

/-- A virtual-disk file path `<seq>-<slug>.vhdx`, modelled as the pair that
determines it; the textual rendering is injective in this pair. -/
structure VdiskPath where
  seq : Nat
  slug : String
deriving DecidableEq, Repr

/-- One creation attempt: the slug used for the filename, and whether the
physical steps succeeded (the node is committed) or the reservation was
aborted. -/
structure CreationAttempt where
  slug : String
  succeeded : Bool
deriving DecidableEq, Repr

/-- Node Store state relevant to sequence numbering: the monotonic counter
from the settings row and the paths of the persisted nodes. -/
structure StoreState where
  seq_counter : Nat
  paths : List VdiskPath
deriving DecidableEq, Repr

/-- Store state right after workspace initialization: counter zero, no
persisted nodes. -/
def initStore : StoreState := ⟨0, []⟩

/-- Modelled from the spec: one creation attempt reserves the next sequence
number (incrementing the counter whatever the outcome) and persists the node
with path `<seq>-<slug>.vhdx` only when the attempt succeeds. -/
def runAttempt (st : StoreState) (a : CreationAttempt) : StoreState :=
  { seq_counter := st.seq_counter + 1
    paths := if a.succeeded then st.paths ++ [⟨st.seq_counter + 1, a.slug⟩] else st.paths }

/-- Store state after a sequence of creation attempts. -/
def runAttempts (st : StoreState) : List CreationAttempt → StoreState
  | [] => st
  | a :: rest => runAttempts (runAttempt st a) rest

/-- Sequence numbers issued by `begin_node`, one per attempt, in order. -/
def issuedSeqs (st : StoreState) : List CreationAttempt → List Nat
  | [] => []
  | a :: rest => (st.seq_counter + 1) :: issuedSeqs (runAttempt st a) rest

theorem issuedSeqs_eq_range' (attempts : List CreationAttempt) (st : StoreState) :
    issuedSeqs st attempts = List.range' (st.seq_counter + 1) attempts.length := by
  induction attempts generalizing st with
  | nil => rfl
  | cons a rest ih =>
    simp [issuedSeqs, List.range'_succ, ih, runAttempt]

theorem runAttempts_counter (attempts : List CreationAttempt) (st : StoreState) :
    (runAttempts st attempts).seq_counter = st.seq_counter + attempts.length := by
  induction attempts generalizing st with
  | nil => rfl
  | cons a rest ih =>
    simp only [runAttempts, ih, runAttempt, List.length_cons]
    omega

theorem runAttempts_paths_bounded_nodup (attempts : List CreationAttempt) (st : StoreState)
    (hb : ∀ p ∈ st.paths, p.seq ≤ st.seq_counter) (hn : (st.paths.map VdiskPath.seq).Nodup) :
    (∀ p ∈ (runAttempts st attempts).paths, p.seq ≤ (runAttempts st attempts).seq_counter) ∧
      ((runAttempts st attempts).paths.map VdiskPath.seq).Nodup := by
  induction attempts generalizing st with
  | nil => exact ⟨hb, hn⟩
  | cons a rest ih =>
    refine ih (runAttempt st a) ?_ ?_
    · intro p hp
      by_cases hs : a.succeeded <;> simp [runAttempt, hs] at hp ⊢
      · rcases hp with hp | hp
        · exact le_trans (hb p hp) (Nat.le_succ _)
        · simp [hp]
      · exact le_trans (hb p hp) (Nat.le_succ _)
    · by_cases hs : a.succeeded
      · simp only [runAttempt, hs, if_true, List.map_append, List.map_cons, List.map_nil]
        rw [List.nodup_append]
        refine ⟨hn, List.nodup_singleton _, ?_⟩
        intro x hx
        simp only [List.mem_map] at hx
        obtain ⟨p, hp, hpx⟩ := hx
        simp only [List.mem_singleton]
        intro hcontra
        have := hb p hp
        omega
      · simpa [runAttempt, hs] using hn

/-- C5: across every sequence of creation attempts (successful or aborted),
the sequence numbers issued by the Node Store are strictly increasing and
never reused — an aborted reservation still consumes its number, so the
final counter equals the number of attempts — and no two persisted nodes
share the same path. -/
theorem store_seq_increasing_paths_unique (attempts : List CreationAttempt) :
    List.Pairwise (· < ·) (issuedSeqs initStore attempts) ∧
    (issuedSeqs initStore attempts).Nodup ∧
    (runAttempts initStore attempts).seq_counter = attempts.length ∧
    (runAttempts initStore attempts).paths.Nodup := by
  have hrange := issuedSeqs_eq_range' attempts initStore
  have hpw : List.Pairwise (· < ·) (issuedSeqs initStore attempts) := by
    rw [hrange]; exact List.pairwise_lt_range' _ _
  have hseqnd := (runAttempts_paths_bounded_nodup attempts initStore (by simp [initStore])
    (by simp [initStore])).2
  exact ⟨hpw, hpw.imp Nat.ne_of_lt, by simpa [initStore] using runAttempts_counter attempts initStore,
    hseqnd.of_map _⟩

/-! ## Workflow Engine: boot-switch workflow (C2)

Modelled from the repository's design document (the Rust implementation is
not under `src/`).  The design doc's workflow 设置下次启动并立即重启 ("set
next boot and immediately reboot", steps: (1) `bcdedit /bootsequence
{guid}`; (2) write the operation history; `shutdown /r /t 0`) and PLAN.md's
milestone 2 both place the restart inside the workflow itself, and the UI
in `src/` invokes the single backend command `set_bootsequence_and_reboot`
without issuing any restart of its own.  Machine-level effects are modelled
as a small command language with an interpreter, so that which step issues
the restart is visible in the commands the workflow runs. -/

/-- Machine-level commands a workflow can issue: arm the next-boot
selection, append an operation-history row, or restart the machine. -/
inductive Cmd where
  | setNextBoot (guid : String)
  | recordOp (action : String)
  | restart
deriving DecidableEq, Repr

/-- Machine state acted on by workflows: the armed next-boot entry, the
operation history, and whether a restart has been issued. -/
structure SysState where
  nextBoot : Option String
  ops : List String
  restarted : Bool
deriving DecidableEq, Repr

/-- Interpreter for machine-level commands. -/
def execCmd (st : SysState) : Cmd → SysState
  | .setNextBoot g => { st with nextBoot := some g }
  | .recordOp a => { st with ops := st.ops ++ [a] }
  | .restart => { st with restarted := true }

/-- Run a command list left to right. -/
def runCmds (st : SysState) : List Cmd → SysState
  | [] => st
  | c :: rest => runCmds (execCmd st c) rest

/-- Modelled from the design doc's 设置下次启动并立即重启 workflow: arm the
next-boot selection with the node's `bcd_guid`, record the operation, then
restart the machine; a node without a bound boot entry cannot be armed. -/
def bootSwitchSaga (n : Node) : Option (List Cmd) :=
  match n.bcd_guid with
  | none => none
  | some g => some [.setNextBoot g, .recordOp "set_next_boot", .restart]

/-- C2 (claim refuted by the documented workflow): arming next boot for a
node with boot entry `g9` from a machine that has not restarted arms the
selection and records the operation — and then the workflow itself issues
the restart as its final command, so the machine ends restarted without any
action by the caller. -/
theorem bootSwitch_workflow_reboots :
    bootSwitchSaga ⟨"a", none, "base", "base/0001-base.vhdx", some "g9", none, 1, .normal, true⟩ =
      some [Cmd.setNextBoot "g9", Cmd.recordOp "set_next_boot", Cmd.restart] ∧
    (runCmds ⟨none, [], false⟩
      [Cmd.setNextBoot "g9", Cmd.recordOp "set_next_boot", Cmd.restart]).nextBoot = some "g9" ∧
    (runCmds ⟨none, [], false⟩
      [Cmd.setNextBoot "g9", Cmd.recordOp "set_next_boot", Cmd.restart]).ops =
      ["set_next_boot"] ∧
    (runCmds ⟨none, [], false⟩
      [Cmd.setNextBoot "g9", Cmd.recordOp "set_next_boot", Cmd.restart]).restarted = true ∧
    (runCmds ⟨none, [], false⟩
      [Cmd.setNextBoot "g9", Cmd.recordOp "set_next_boot"]).restarted = false :=
  ⟨rfl, rfl, rfl, rfl, rfl⟩

/-! ## Disk Orchestrator: scoped resource acquisition (C6)

Modelled from the spec: the Rust Disk Orchestrator is not under `src/`.
Spec §4.3: mount points and drive-letter assignments are released, and the
virtual disk is detached, on every exit path — including error paths —
before control returns to the caller.  An orchestrator operation is a step
list run against physical state; each step may acquire a mount point or a
temporary drive letter and may fail (failure decided by an oracle standing
for the external tools); the orchestrator logs acquisitions and releases
them, newest first, on both exit paths. -/

/-- Physical disk state: attached virtual disks, acquired mount-point
directories, and temporarily assigned drive letters. -/
structure DiskState where
  attachedDisks : List String
  mountPoints : List String
  driveLetters : List Char
deriving DecidableEq, Repr

/-- One step of an orchestrator operation: acquire a mount point, assign a
temporary drive letter (the fallback), or run an external tool. -/
inductive OrchStep where
  | mount (dir : String)
  | assignLetter (l : Char)
  | tool (name : String)
deriving DecidableEq, Repr

/-- Effect of a successfully executed step on physical state. -/
def applyStep (st : DiskState) : OrchStep → DiskState
  | .mount d => { st with mountPoints := d :: st.mountPoints }
  | .assignLetter l => { st with driveLetters := l :: st.driveLetters }
  | .tool _ => st

/-- Release of the resource a step acquired. -/
def releaseStep (st : DiskState) : OrchStep → DiskState
  | .mount d => { st with mountPoints := st.mountPoints.erase d }
  | .assignLetter l => { st with driveLetters := st.driveLetters.erase l }
  | .tool _ => st

/-- Release every logged acquisition, newest first. -/
def releaseAll (st : DiskState) : List OrchStep → DiskState
  | [] => st
  | s :: rest => releaseAll (releaseStep st s) rest

/-- Detach a virtual disk. -/
def detachDisk (disk : String) (st : DiskState) : DiskState :=
  { st with attachedDisks := st.attachedDisks.erase disk }

/-- Main loop of an orchestrator operation: run the steps until one fails,
logging acquisitions; on either exit (all steps done, or first failure)
release every acquisition and detach the disk before returning. -/
def orchLoop (oracle : OrchStep → Bool) (disk : String) (st : DiskState)
    (acq : List OrchStep) : List OrchStep → DiskState × Option OrchStep
  | [] => (detachDisk disk (releaseAll st acq), none)
  | s :: rest =>
    if oracle s then orchLoop oracle disk (applyStep st s) (s :: acq) rest
    else (detachDisk disk (releaseAll st acq), some s)

/-- Modelled from the spec: a full orchestrator operation — attach the
disk, run the steps, and on every exit path release all acquisitions and
detach. -/
def runOrchOp (oracle : OrchStep → Bool) (disk : String) (st : DiskState)
    (steps : List OrchStep) : DiskState × Option OrchStep :=
  orchLoop oracle disk { st with attachedDisks := disk :: st.attachedDisks } [] steps

/-- Mount-points acquired by a logged step list, newest first. -/
def mountsOf : List OrchStep → List String
  | [] => []
  | .mount d :: rest => d :: mountsOf rest
  | _ :: rest => mountsOf rest

/-- Drive letters acquired by a logged step list, newest first. -/
def lettersOf : List OrchStep → List Char
  | [] => []
  | .assignLetter l :: rest => l :: lettersOf rest
  | _ :: rest => lettersOf rest

theorem releaseAll_restores (acq : List OrchStep) (st : DiskState)
    (M : List String) (L : List Char)
    (hm : st.mountPoints = mountsOf acq ++ M) (hl : st.driveLetters = lettersOf acq ++ L) :
    releaseAll st acq = { st with mountPoints := M, driveLetters := L } := by
  induction acq generalizing st with
  | nil =>
    simp [mountsOf, lettersOf] at hm hl
    simp [releaseAll, ← hm, ← hl]
  | cons s rest ih =>
    cases s with
    | mount d =>
      simp only [mountsOf, List.cons_append] at hm
      rw [releaseAll, ih (releaseStep st (.mount d)) (by simp [releaseStep, hm])
        (by simpa [releaseStep, lettersOf] using hl)]
      simp [releaseStep]
    | assignLetter l =>
      simp only [lettersOf, List.cons_append] at hl
      rw [releaseAll, ih (releaseStep st (.assignLetter l))
        (by simpa [releaseStep, mountsOf] using hm) (by simp [releaseStep, hl])]
      simp [releaseStep]
    | tool name =>
      rw [releaseAll, ih (releaseStep st (.tool name))
        (by simpa [releaseStep, mountsOf] using hm)
        (by simpa [releaseStep, lettersOf] using hl)]
      simp [releaseStep]

theorem orchLoop_cleans (oracle : OrchStep → Bool) (disk : String) (st0 : DiskState)
    (steps : List OrchStep) (st : DiskState) (acq : List OrchStep)
    (hm : st.mountPoints = mountsOf acq ++ st0.mountPoints)
    (hl : st.driveLetters = lettersOf acq ++ st0.driveLetters)
    (ha : st.attachedDisks = disk :: st0.attachedDisks) :
    (orchLoop oracle disk st acq steps).1 = st0 := by
  induction steps generalizing st acq with
  | nil =>
    simp only [orchLoop, releaseAll_restores acq st _ _ hm hl, detachDisk, ha]
    simp [List.erase_cons_head]
  | cons s rest ih =>
    rw [orchLoop]
    by_cases ho : oracle s
    · rw [if_pos ho]
      refine ih (applyStep st s) (s :: acq) ?_ ?_ ?_
      · cases s with
        | mount d => simp [applyStep, mountsOf, hm]
        | assignLetter l => simpa [applyStep, mountsOf] using hm
        | tool name => simpa [applyStep, mountsOf] using hm
      · cases s with
        | mount d => simpa [applyStep, lettersOf] using hl
        | assignLetter l => simp [applyStep, lettersOf, hl]
        | tool name => simpa [applyStep, lettersOf] using hl
      · cases s with
        | mount d => simpa [applyStep] using ha
        | assignLetter l => simpa [applyStep] using ha
        | tool name => simpa [applyStep] using ha
    · rw [if_neg ho]
      simp only [releaseAll_restores acq st _ _ hm hl, detachDisk, ha]
      simp [List.erase_cons_head]

/-- Workflow-level mount: attach the node's disk and acquire a mount point,
returning its path to the caller. -/
def mountNode (disk mountDir : String) (st : DiskState) : DiskState × String :=
  ({ st with attachedDisks := disk :: st.attachedDisks,
             mountPoints := mountDir :: st.mountPoints }, mountDir)

/-- Workflow-level unmount: release the mount point and detach the disk. -/
def unmountNode (disk mountDir : String) (st : DiskState) : DiskState :=
  detachDisk disk { st with mountPoints := st.mountPoints.erase mountDir }

/-- C6: every Disk Orchestrator operation, on every exit path — success or
first failing step — releases all acquired mount points and temporary drive
letters and detaches the virtual disk before returning; and a mount
followed by an unmount of the same node restores the exact physical state,
leaving zero residual mount points and zero attached state. -/
theorem orchestrator_releases_on_every_exit (oracle : OrchStep → Bool) (disk mountDir : String)
    (st : DiskState) (steps : List OrchStep) :
    (runOrchOp oracle disk st steps).1 = st ∧
    unmountNode disk mountDir (mountNode disk mountDir st).1 = st := by
  constructor
  · exact orchLoop_cleans oracle disk st steps _ [] (by simp [mountsOf])
      (by simp [lettersOf]) rfl
  · obtain ⟨A, M, L⟩ := st
    simp [unmountNode, mountNode, detachDisk, List.erase_cons_head]

/-! ## Workflow Engine: cascading delete (C1, C3)

Modelled from the repository's design document (the Rust implementation is
not under `src/`).  Design doc, cascading delete: collect the subtree of
the target by DFS (the target included) and delete 按层序 — in level
order: the target first, then its children, then their children, level by
level; for each node in that order run the per-node steps (detach, delete
boot entry, delete file, delete row, appending one operation row); if any
per-node step fails, stop immediately — nodes already removed remain
removed, the failing node and all not-yet-processed nodes remain in the
store (the design doc's 中断整体删除 policy, which the spec restates).
Children are discovered by scanning `parent_id`; the level expansion is
fuelled by the store size plus one, which bounds the number of levels. -/

/-- Identifiers of the children of node id `pid`, in store order. -/
def childrenIds (nodes : List Node) (pid : String) : List String :=
  (nodes.filter (fun n => n.parent_id == some pid)).map Node.id

/-- Modelled from the design doc: level-order listing of the subtree below
a frontier of node ids — the current level first, then the levels below. -/
def levelOrderAux (nodes : List Node) : Nat → List String → List String
  | 0, _ => []
  | fuel + 1, frontier =>
    match frontier with
    | [] => []
    | _ :: _ => frontier ++ levelOrderAux nodes fuel (frontier.flatMap (childrenIds nodes))

/-- Modelled from the design doc: the deletion order of the subtree of
`target` — its level-order listing, ancestors first. -/
def deleteOrder (nodes : List Node) (target : String) : List String :=
  levelOrderAux nodes (nodes.length + 1) [target]

/-- Per-node deletion loop.  `ok` stands for the outcome of the physical
per-node steps (detach, delete boot entry, delete file); on success the row
is removed and one operation row is appended, on the first failure the loop
stops with the failing node, leaving store and history as they are. -/
def runDeletes (ok : String → Bool) (store : List Node) (ops : List String) :
    List String → List Node × List String × Option String
  | [] => (store, ops, none)
  | i :: rest =>
    if ok i then
      runDeletes ok (store.filter (fun n => !(n.id == i))) (ops ++ ["delete:" ++ i]) rest
    else (store, ops, some i)

/-- Modelled from the design doc: the cascading-delete workflow — delete
the subtree of `target` in level order, stopping at the first failing
node. -/
def cascadeDelete (ok : String → Bool) (nodes : List Node) (target : String) :
    List Node × List String × Option String :=
  runDeletes ok nodes [] (deleteOrder nodes target)

/-- C1 (claim refuted by the documented workflow): deleting the subtree of
a base with one diff child processes the level-order listing base first, so
the two rows are removed with the base before the child and the recorded
operation history deletes the base before the child — the opposite of the
claimed leaves-first order. -/
theorem cascade_levelorder_base_before_child :
    deleteOrder
      [⟨"b", none, "base", "0001-base.vhdx", some "g1", none, 1, .normal, true⟩,
       ⟨"c", some "b", "child", "0002-child.vhdx", some "g2", none, 2, .normal, true⟩] "b" =
      ["b", "c"] ∧
    (cascadeDelete (fun _ => true)
      [⟨"b", none, "base", "0001-base.vhdx", some "g1", none, 1, .normal, true⟩,
       ⟨"c", some "b", "child", "0002-child.vhdx", some "g2", none, 2, .normal, true⟩]
      "b").2.1 = ["delete:" ++ "b", "delete:" ++ "c"] ∧
    (cascadeDelete (fun _ => true)
      [⟨"b", none, "base", "0001-base.vhdx", some "g1", none, 1, .normal, true⟩,
       ⟨"c", some "b", "child", "0002-child.vhdx", some "g2", none, 2, .normal, true⟩]
      "b").1 = [] := by
  refine ⟨?_, ?_, ?_⟩ <;> rfl

theorem runDeletes_failure_spec (ok : String → Bool) :
    ∀ (order : List String) (store : List Node) (ops : List String) (fid : String),
      (runDeletes ok store ops order).2.2 = some fid →
      ∃ pre suf, order = pre ++ fid :: suf ∧
        (∀ i ∈ pre, ok i = true) ∧ ok fid = false ∧
        (runDeletes ok store ops order).1 =
          store.filter (fun n => !(pre.contains n.id)) ∧
        (runDeletes ok store ops order).2.1 = ops ++ pre.map (fun i => "delete:" ++ i) := by
  intro order
  induction order with
  | nil => intro store ops fid h; simp [runDeletes] at h
  | cons i rest ih =>
    intro store ops fid h
    by_cases hi : ok i
    · rw [runDeletes, if_pos hi] at h
      obtain ⟨pre, suf, horder, hpre, hfid, hstore, hops⟩ :=
        ih (store.filter (fun n => !(n.id == i))) (ops ++ ["delete:" ++ i]) fid h
      refine ⟨i :: pre, suf, by simp [horder], ?_, hfid, ?_, ?_⟩
      · intro j hj
        rcases List.mem_cons.1 hj with hj | hj
        · rw [hj]; exact hi
        · exact hpre j hj
      · rw [runDeletes, if_pos hi, hstore, List.filter_filter]
        refine List.filter_congr ?_
        intro n _
        have hcc : ((i :: pre).contains n.id) = (n.id == i || pre.contains n.id) := rfl
        rw [hcc, Bool.not_or, Bool.and_comm]
      · rw [runDeletes, if_pos hi, hops]
        simp
    · rw [runDeletes, if_neg hi] at h
      simp only at h
      cases h
      refine ⟨[], rest, rfl, by simp, by simpa using hi, ?_, ?_⟩
      · rw [runDeletes, if_neg hi]
        simp
      · rw [runDeletes, if_neg hi]
        simp

/-- C3: when a per-node step of a cascading delete fails, the workflow stops
at the failing node: the deletion order splits as a fully-successful prefix,
then the failing node; the surviving store is exactly the original store
minus that prefix (earlier nodes stay removed, the failing node and all
not-yet-processed nodes stay present), and exactly one operation row was
recorded per removed node. -/
theorem cascade_failure_removes_prefix (ok : String → Bool) (nodes : List Node)
    (target : String) (fid : String)
    (hfail : (cascadeDelete ok nodes target).2.2 = some fid) :
    ∃ pre suf, deleteOrder nodes target = pre ++ fid :: suf ∧
      (∀ i ∈ pre, ok i = true) ∧ ok fid = false ∧
      (cascadeDelete ok nodes target).1 = nodes.filter (fun n => !(pre.contains n.id)) ∧
      (cascadeDelete ok nodes target).2.1 = pre.map (fun i => "delete:" ++ i) ∧
      (∀ n ∈ nodes, n.id = fid → n ∈ (cascadeDelete ok nodes target).1) := by
  obtain ⟨pre, suf, horder, hpre, hfid, hstore, hops⟩ :=
    runDeletes_failure_spec ok (deleteOrder nodes target) nodes [] fid hfail
  refine ⟨pre, suf, horder, hpre, hfid, hstore, by simpa using hops, ?_⟩
  intro n hn hnid
  show n ∈ (runDeletes ok nodes [] (deleteOrder nodes target)).1
  rw [hstore]
  simp only [List.mem_filter]
  refine ⟨hn, ?_⟩
  rw [Bool.not_eq_eq_eq_not, Bool.not_true, ← Bool.not_eq_true, List.contains_eq_any_beq]
  intro hmem
  simp only [List.any_eq_true, beq_iff_eq] at hmem
  obtain ⟨j, hj, hjeq⟩ := hmem
  rw [hnid] at hjeq
  rw [hjeq] at hfid
  rw [hpre j hj] at hfid
  exact absurd hfid (by simp)

/-- Concrete check of `cascade_failure_removes_prefix`: in a three-node
chain base → mid → leaf, a failure at `mid` leaves the leaf removed and
both `mid` and the base still in the store. -/
theorem cascade_failure_removes_prefix_witness :
    ∃ pre suf, deleteOrder
        [⟨"b", none, "base", "0001-base.vhdx", none, none, 1, .normal, true⟩,
         ⟨"m", some "b", "mid", "0002-mid.vhdx", none, none, 2, .normal, true⟩,
         ⟨"l", some "m", "leaf", "0003-leaf.vhdx", none, none, 3, .normal, true⟩] "b" =
        pre ++ "m" :: suf ∧
      (∀ i ∈ pre, (fun s => !(s == "m")) i = true) ∧ (fun s => !(s == "m")) "m" = false ∧
      (cascadeDelete (fun s => !(s == "m"))
        [⟨"b", none, "base", "0001-base.vhdx", none, none, 1, .normal, true⟩,
         ⟨"m", some "b", "mid", "0002-mid.vhdx", none, none, 2, .normal, true⟩,
         ⟨"l", some "m", "leaf", "0003-leaf.vhdx", none, none, 3, .normal, true⟩] "b").1 =
        List.filter (fun n => !(pre.contains n.id))
          [⟨"b", none, "base", "0001-base.vhdx", none, none, 1, .normal, true⟩,
           ⟨"m", some "b", "mid", "0002-mid.vhdx", none, none, 2, .normal, true⟩,
           ⟨"l", some "m", "leaf", "0003-leaf.vhdx", none, none, 3, .normal, true⟩] ∧
      (cascadeDelete (fun s => !(s == "m"))
        [⟨"b", none, "base", "0001-base.vhdx", none, none, 1, .normal, true⟩,
         ⟨"m", some "b", "mid", "0002-mid.vhdx", none, none, 2, .normal, true⟩,
         ⟨"l", some "m", "leaf", "0003-leaf.vhdx", none, none, 3, .normal, true⟩] "b").2.1 =
        pre.map (fun i => "delete:" ++ i) ∧
      (∀ n ∈ [⟨"b", none, "base", "0001-base.vhdx", none, none, 1, .normal, true⟩,
         ⟨"m", some "b", "mid", "0002-mid.vhdx", none, none, 2, .normal, true⟩,
         (⟨"l", some "m", "leaf", "0003-leaf.vhdx", none, none, 3, .normal, true⟩ : Node)],
        n.id = "m" →
        n ∈ (cascadeDelete (fun s => !(s == "m"))
          [⟨"b", none, "base", "0001-base.vhdx", none, none, 1, .normal, true⟩,
           ⟨"m", some "b", "mid", "0002-mid.vhdx", none, none, 2, .normal, true⟩,
           ⟨"l", some "m", "leaf", "0003-leaf.vhdx", none, none, 3, .normal, true⟩] "b").1) :=
  cascade_failure_removes_prefix (fun s => !(s == "m"))
    [⟨"b", none, "base", "0001-base.vhdx", none, none, 1, .normal, true⟩,
     ⟨"m", some "b", "mid", "0002-mid.vhdx", none, none, 2, .normal, true⟩,
     ⟨"l", some "m", "leaf", "0003-leaf.vhdx", none, none, 3, .normal, true⟩] "b" "m"
    (by decide)

/-! ## UI tree construction: `treeData` (C8, C9)

Translated from `src/App.tsx` (`treeData`, identical in every `App.tsx`
variant shipped in the repository):

```
const map = new Map<string, TreeNode>();
nodes.forEach((n) => map.set(n.id, { ...n, children: [] }));
const roots: TreeNode[] = [];
map.forEach((node) => {
  const parentId = node.parent_id || "";
  if (parentId && map.has(parentId)) map.get(parentId)!.children.push(node);
  else roots.push(node);
});
const sortRecursively = (list: TreeNode[]) => {
  list.sort((a, b) => new Date(a.created_at).getTime() - new Date(b.created_at).getTime());
  list.forEach((child) => sortRecursively(child.children));
};
sortRecursively(roots);
return roots;
```

For a node list with distinct ids (the only lists the claims quantify over,
and the only ones on which a JavaScript `Map` keyed by id represents the
list faithfully), the imperative push loop makes node `m` a child of the
unique node whose id is `m.parent_id || ""` when that key is truthy
(non-empty) and present, and a root otherwise; children and roots are
collected in list order.  The mutation-free translation materialises each
subtree recursively, fuelled by the list length, which bounds every tree
depth occurring under distinct ids.  `Array.prototype.sort` is stable
(ES2019), so the recursive sort is embedded as a stable insertion sort by
ascending `created_at`. -/

/-- Parent key as the UI computes it: `node.parent_id || ""`. -/
def parentKey (n : Node) : String :=
  n.parent_id.getD ""

/-- Embedding of `map.has(i)` for a distinct-id node list. -/
def hasId (nodes : List Node) (i : String) : Bool :=
  nodes.any (fun n => n.id == i)

/-- Children the push loop assigns to node `p`: the nodes, in list order,
whose truthy parent key equals `p`'s id. -/
def childrenOf (nodes : List Node) (p : Node) : List Node :=
  nodes.filter (fun m => !(parentKey m == "") && parentKey m == p.id)

/-- Roots the push loop collects: the nodes, in list order, whose parent key
is empty or refers to no node in the list. -/
def rootsOf (nodes : List Node) : List Node :=
  nodes.filter (fun m => parentKey m == "" || !(hasId nodes (parentKey m)))

/-- The UI's `TreeNode`: a node record with its list of child trees. -/
inductive TTree where
  | mk (node : Node) (children : List TTree)

/-- Record at the root of a tree. -/
def rootNode : TTree → Node
  | .mk n _ => n

/-- Id at the root of a tree. -/
def rootId (t : TTree) : String :=
  (rootNode t).id

/-- `created_at` at the root of a tree, the sort key of `sortRecursively`. -/
def rootCreated (t : TTree) : Nat :=
  (rootNode t).created_at

/-- Materialisation of the subtree of `n` built by the push loop.  The fuel
starts at the list length, which under the claims' hypotheses bounds the
depth of every subtree, so the fuel never runs out on a reachable node. -/
def buildTree (nodes : List Node) : Nat → Node → TTree
  | 0, n => .mk n []
  | fuel + 1, n => .mk n ((childrenOf nodes n).map (buildTree nodes fuel))

/-- Stable insertion of a tree into a sibling list ordered by ascending
`created_at` (the comparator `(a, b) => ta - tb` of `sortRecursively`). -/
def insertByCreated (t : TTree) : List TTree → List TTree
  | [] => [t]
  | u :: us => if rootCreated t ≤ rootCreated u then t :: u :: us else u :: insertByCreated t us

/-- Stable insertion sort of a sibling list by ascending `created_at`. -/
def insortByCreated : List TTree → List TTree
  | [] => []
  | t :: ts => insertByCreated t (insortByCreated ts)

mutual

/-- `sortRecursively` below one record: sort every sibling list inside. -/
def sortTree : TTree → TTree
  | .mk n cs => .mk n (insortByCreated (sortEach cs))

/-- Apply `sortTree` to every element of a sibling list. -/
def sortEach : List TTree → List TTree
  | [] => []
  | t :: ts => sortTree t :: sortEach ts

end

/-- `sortRecursively` on a whole forest: sort the top level and, through
`sortTree`, every level below it. -/
def sortForest (l : List TTree) : List TTree :=
  insortByCreated (sortEach l)

/-- Translation of `treeData`: attach every node to its parent (or to the
root list), materialise the subtrees of the roots, and sort every sibling
list by ascending `created_at`. -/
def treeData (nodes : List Node) : List TTree :=
  sortForest ((rootsOf nodes).map (buildTree nodes nodes.length))

mutual

/-- Number of records with id `x` inside one tree. -/
def countTree (x : String) : TTree → Nat
  | .mk n cs => (if n.id = x then 1 else 0) + countForest x cs

/-- Number of records with id `x` inside a forest. -/
def countForest (x : String) : List TTree → Nat
  | [] => 0
  | t :: ts => countTree x t + countForest x ts

end

mutual

/-- All (parent id, child id) edges of one tree. -/
def childPairsTree : TTree → List (String × String)
  | .mk n cs => cs.map (fun c => (n.id, rootId c)) ++ childPairsForest cs

/-- All (parent id, child id) edges of a forest. -/
def childPairsForest : List TTree → List (String × String)
  | [] => []
  | t :: ts => childPairsTree t ++ childPairsForest ts

end

/-- Whether a sibling list is sorted by ascending `created_at`. -/
def sortedByCreatedB : List TTree → Bool
  | [] => true
  | [_] => true
  | a :: b :: r => (rootCreated a ≤ rootCreated b : Bool) && sortedByCreatedB (b :: r)

mutual

/-- Whether every sibling list strictly inside the tree is sorted. -/
def levelsSortedTree : TTree → Bool
  | .mk _ cs => sortedByCreatedB cs && levelsSortedEach cs

/-- Whether every sibling list inside any of the trees is sorted. -/
def levelsSortedEach : List TTree → Bool
  | [] => true
  | t :: ts => levelsSortedTree t && levelsSortedEach ts

end

/-- Whether every sibling list of the forest — the top level and every
children list at every depth — is sorted by ascending `created_at`. -/
def levelsSortedForest (l : List TTree) : Bool :=
  sortedByCreatedB l && levelsSortedEach l

/-- The one-step child relation the push loop realises: `b` is attached to
the children list of `a`. -/
def childStep (nodes : List Node) (a b : Node) : Prop :=
  b ∈ childrenOf nodes a

theorem insertByCreated_perm (t : TTree) (l : List TTree) :
    (insertByCreated t l).Perm (t :: l) := by
  induction l with
  | nil => simp [insertByCreated]
  | cons u us ih =>
    rw [insertByCreated]
    by_cases h : rootCreated t ≤ rootCreated u
    · rw [if_pos h]
    · rw [if_neg h]
      exact (ih.cons u).trans (List.Perm.swap t u us)

theorem insortByCreated_perm (l : List TTree) : (insortByCreated l).Perm l := by
  induction l with
  | nil => simp [insortByCreated]
  | cons t ts ih =>
    exact (insertByCreated_perm t (insortByCreated ts)).trans (ih.cons t)

theorem countForest_eq_sum (x : String) (l : List TTree) :
    countForest x l = (l.map (countTree x)).sum := by
  induction l with
  | nil => rfl
  | cons t ts ih => rw [countForest, ih, List.map_cons, List.sum_cons]

theorem countForest_perm (x : String) (l1 l2 : List TTree) (h : l1.Perm l2) :
    countForest x l1 = countForest x l2 := by
  rw [countForest_eq_sum, countForest_eq_sum]
  exact (h.map (countTree x)).sum_eq

mutual

theorem countTree_sortTree (x : String) : ∀ t : TTree, countTree x (sortTree t) = countTree x t
  | .mk n cs => by
    rw [sortTree, countTree, countTree,
      countForest_perm x _ _ (insortByCreated_perm (sortEach cs)),
      countForest_sortEach x cs]

theorem countForest_sortEach (x : String) :
    ∀ l : List TTree, countForest x (sortEach l) = countForest x l
  | [] => rfl
  | t :: ts => by
    rw [sortEach, countForest, countForest, countTree_sortTree x t, countForest_sortEach x ts]

end

theorem countForest_sortForest (x : String) (l : List TTree) :
    countForest x (sortForest l) = countForest x l := by
  rw [sortForest, countForest_perm x _ _ (insortByCreated_perm (sortEach l)),
    countForest_sortEach]

theorem childPairsForest_eq_flatMap (l : List TTree) :
    childPairsForest l = l.flatMap childPairsTree := by
  induction l with
  | nil => rfl
  | cons t ts ih => rw [childPairsForest, ih, List.flatMap_cons]

theorem mem_childPairsForest_iff (q : String × String) (l : List TTree) :
    q ∈ childPairsForest l ↔ ∃ t ∈ l, q ∈ childPairsTree t := by
  rw [childPairsForest_eq_flatMap, List.mem_flatMap]

theorem rootId_sortTree : ∀ t : TTree, rootId (sortTree t) = rootId t
  | .mk _ _ => rfl

theorem rootNode_sortTree : ∀ t : TTree, rootNode (sortTree t) = rootNode t
  | .mk _ _ => rfl

theorem sortEach_eq_map : ∀ l : List TTree, sortEach l = l.map sortTree
  | [] => rfl
  | t :: ts => by rw [sortEach, List.map_cons, sortEach_eq_map ts]

mutual

theorem mem_childPairsTree_sortTree (q : String × String) :
    ∀ t : TTree, q ∈ childPairsTree (sortTree t) ↔ q ∈ childPairsTree t
  | .mk n cs => by
    rw [sortTree, childPairsTree, childPairsTree]
    simp only [List.mem_append, List.mem_map]
    constructor
    · rintro (⟨c, hc, hcq⟩ | h)
      · have hc2 : c ∈ sortEach cs := (insortByCreated_perm (sortEach cs)).subset hc
        rw [sortEach_eq_map] at hc2
        obtain ⟨c0, hc0, hc0e⟩ := List.mem_map.1 hc2
        left
        exact ⟨c0, hc0, by rw [← hc0e] at hcq; rwa [rootId_sortTree] at hcq⟩
      · right
        rw [mem_childPairsForest_iff] at h
        obtain ⟨t', ht', hq⟩ := h
        have ht2 : t' ∈ sortEach cs := (insortByCreated_perm (sortEach cs)).subset ht'
        rw [sortEach_eq_map] at ht2
        obtain ⟨t0, ht0, ht0e⟩ := List.mem_map.1 ht2
        rw [mem_childPairsForest_iff]
        refine ⟨t0, ht0, ?_⟩
        rw [← ht0e] at hq
        exact (mem_childPairsTree_sortTree q t0).1 hq
    · rintro (⟨c, hc, hcq⟩ | h)
      · left
        refine ⟨sortTree c, ?_, by rwa [rootId_sortTree]⟩
        refine (insortByCreated_perm (sortEach cs)).mem_iff.2 ?_
        rw [sortEach_eq_map]
        exact List.mem_map.2 ⟨c, hc, rfl⟩
      · right
        rw [mem_childPairsForest_iff] at h ⊢
        obtain ⟨t', ht', hq⟩ := h
        refine ⟨sortTree t', ?_, (mem_childPairsTree_sortTree q t').2 hq⟩
        refine (insortByCreated_perm (sortEach cs)).mem_iff.2 ?_
        rw [sortEach_eq_map]
        exact List.mem_map.2 ⟨t', ht', rfl⟩

end

theorem mem_childPairsForest_sortForest (q : String × String) (l : List TTree) :
    q ∈ childPairsForest (sortForest l) ↔ q ∈ childPairsForest l := by
  rw [sortForest, mem_childPairsForest_iff, mem_childPairsForest_iff]
  constructor
  · rintro ⟨t, ht, hq⟩
    have ht2 : t ∈ sortEach l := (insortByCreated_perm (sortEach l)).subset ht
    rw [sortEach_eq_map] at ht2
    obtain ⟨t0, ht0, ht0e⟩ := List.mem_map.1 ht2
    refine ⟨t0, ht0, ?_⟩
    rw [← ht0e] at hq
    exact (mem_childPairsTree_sortTree q t0).1 hq
  · rintro ⟨t, ht, hq⟩
    refine ⟨sortTree t, ?_, (mem_childPairsTree_sortTree q t).2 hq⟩
    refine (insortByCreated_perm (sortEach l)).mem_iff.2 ?_
    rw [sortEach_eq_map]
    exact List.mem_map.2 ⟨t, ht, rfl⟩

theorem rootId_buildTree (nodes : List Node) (fuel : Nat) (n : Node) :
    rootId (buildTree nodes fuel n) = n.id := by
  cases fuel <;> rfl

theorem mem_map_rootId_sortForest (x : String) (l : List TTree) :
    x ∈ (sortForest l).map rootId ↔ x ∈ l.map rootId := by
  rw [sortForest]
  constructor
  · intro h
    obtain ⟨t, ht, hte⟩ := List.mem_map.1 h
    have ht2 : t ∈ sortEach l := (insortByCreated_perm (sortEach l)).subset ht
    rw [sortEach_eq_map] at ht2
    obtain ⟨t0, ht0, ht0e⟩ := List.mem_map.1 ht2
    refine List.mem_map.2 ⟨t0, ht0, ?_⟩
    rw [← ht0e] at hte
    rwa [rootId_sortTree] at hte
  · intro h
    obtain ⟨t, ht, hte⟩ := List.mem_map.1 h
    refine List.mem_map.2 ⟨sortTree t, ?_, by rwa [rootId_sortTree]⟩
    refine (insortByCreated_perm (sortEach l)).mem_iff.2 ?_
    rw [sortEach_eq_map]
    exact List.mem_map.2 ⟨t, ht, rfl⟩

/-- Fuel bound used by the `buildTree` lemmas: how many nodes have a strictly
larger rank than the node at hand.  Children always have strictly smaller
bounds, and every bound is at most the list length. -/
def boundOf (nodes : List Node) (rank : String → Nat) (i : String) : Nat :=
  nodes.countP (fun m => decide (rank i < rank m.id))

theorem countP_lt_pred {α : Type} (l : List α) (P Q : α → Bool)
    (h : ∀ a ∈ l, P a = true → Q a = true) (c : α) (hc : c ∈ l)
    (hQ : Q c = true) (hP : P c = false) : l.countP P < l.countP Q := by
  induction l with
  | nil => simp at hc
  | cons a t ih =>
    have hmono : t.countP P ≤ t.countP Q :=
      List.countP_mono_left (fun b hb => h b (List.mem_cons_of_mem a hb))
    rcases List.mem_cons.1 hc with hca | hct
    · subst hca
      simp [List.countP_cons, hP, hQ]
      omega
    · have hlt := ih (fun b hb => h b (List.mem_cons_of_mem a hb)) hct
      simp only [List.countP_cons]
      by_cases hPa : P a = true
      · simp [hPa, h a (List.mem_cons_self a t) hPa]
        omega
      · simp only [Bool.not_eq_true] at hPa
        simp only [hPa]
        by_cases hQa : Q a = true
        · simp [hQa]
          omega
        · simp only [Bool.not_eq_true] at hQa
          simp [hQa]
          omega

theorem mem_childrenOf (nodes : List Node) (p c : Node) :
    c ∈ childrenOf nodes p ↔ c ∈ nodes ∧ parentKey c = p.id ∧ parentKey c ≠ "" := by
  rw [childrenOf, List.mem_filter]
  constructor
  · rintro ⟨hc, hb⟩
    simp only [Bool.and_eq_true, Bool.not_eq_eq_eq_not, Bool.not_true, beq_iff_eq,
      beq_eq_false_iff_ne, ne_eq] at hb
    exact ⟨hc, hb.2, hb.1⟩
  · rintro ⟨hc, he, hne⟩
    refine ⟨hc, ?_⟩
    simp only [Bool.and_eq_true, Bool.not_eq_eq_eq_not, Bool.not_true, beq_iff_eq,
      beq_eq_false_iff_ne, ne_eq]
    exact ⟨hne, he⟩

theorem mem_rootsOf (nodes : List Node) (m : Node) :
    m ∈ rootsOf nodes ↔ m ∈ nodes ∧ (parentKey m = "" ∨ hasId nodes (parentKey m) = false) := by
  rw [rootsOf, List.mem_filter]
  constructor
  · rintro ⟨hm, hb⟩
    simp only [Bool.or_eq_true, beq_iff_eq, Bool.not_eq_true'] at hb
    exact ⟨hm, hb⟩
  · rintro ⟨hm, hb⟩
    refine ⟨hm, ?_⟩
    simp only [Bool.or_eq_true, beq_iff_eq, Bool.not_eq_true']
    exact hb

theorem boundOf_child_lt (nodes : List Node) (rank : String → Nat)
    (hr : ∀ m ∈ nodes, ∀ p ∈ nodes, parentKey m = p.id → parentKey m ≠ "" →
      rank p.id < rank m.id)
    (p : Node) (hp : p ∈ nodes) (c : Node) (hc : c ∈ childrenOf nodes p) :
    boundOf nodes rank c.id < boundOf nodes rank p.id := by
  obtain ⟨hcn, hck, hcne⟩ := (mem_childrenOf nodes p c).1 hc
  have hrank : rank p.id < rank c.id := hr c hcn p hp hck hcne
  refine countP_lt_pred nodes _ _ ?_ c hcn ?_ ?_
  · intro a _ ha
    simp only [decide_eq_true_eq] at ha ⊢
    omega
  · simp only [decide_eq_true_eq]
    exact hrank
  · simp only [decide_eq_false_iff_not]
    omega

theorem boundOf_le_length (nodes : List Node) (rank : String → Nat) (i : String) :
    boundOf nodes rank i ≤ nodes.length :=
  nodes.countP_le_length _

theorem childrenOf_eq_nil_of_bound_zero (nodes : List Node) (rank : String → Nat)
    (hr : ∀ m ∈ nodes, ∀ p ∈ nodes, parentKey m = p.id → parentKey m ≠ "" →
      rank p.id < rank m.id)
    (p : Node) (hp : p ∈ nodes) (hb : boundOf nodes rank p.id = 0) :
    childrenOf nodes p = [] := by
  rcases h : childrenOf nodes p with _ | ⟨c, cs⟩
  · rfl
  · exfalso
    have hc : c ∈ childrenOf nodes p := by rw [h]; exact List.mem_cons_self c cs
    have := boundOf_child_lt nodes rank hr p hp c hc
    omega

theorem rtg_mem (nodes : List Node) (a b : Node) (ha : a ∈ nodes)
    (h : Relation.ReflTransGen (childStep nodes) a b) : b ∈ nodes := by
  induction h with
  | refl => exact ha
  | tail _hsub hstep ih =>
    exact ((mem_childrenOf nodes _ _).1 hstep).1

theorem rtg_rank_le (nodes : List Node) (rank : String → Nat)
    (hr : ∀ m ∈ nodes, ∀ p ∈ nodes, parentKey m = p.id → parentKey m ≠ "" →
      rank p.id < rank m.id)
    (a b : Node) (ha : a ∈ nodes)
    (h : Relation.ReflTransGen (childStep nodes) a b) : rank a.id ≤ rank b.id := by
  induction h with
  | refl => exact le_refl _
  | tail hsub hstep ih =>
    obtain ⟨hbn, hbk, hbne⟩ := (mem_childrenOf nodes _ _).1 hstep
    have := hr _ hbn _ (rtg_mem nodes a _ ha hsub) hbk hbne
    omega

theorem parent_unique (nodes : List Node) (hnd : (nodes.map Node.id).Nodup)
    (p1 p2 m : Node) (hp1 : p1 ∈ nodes) (hp2 : p2 ∈ nodes)
    (h1 : childStep nodes p1 m) (h2 : childStep nodes p2 m) : p1 = p2 := by
  obtain ⟨_, hk1, _⟩ := (mem_childrenOf nodes _ _).1 h1
  obtain ⟨_, hk2, _⟩ := (mem_childrenOf nodes _ _).1 h2
  exact List.inj_on_of_nodup_map hnd hp1 hp2 (by rw [← hk1, hk2])

theorem rtg_comparable (nodes : List Node) (hnd : (nodes.map Node.id).Nodup)
    (a z : Node) (ha : a ∈ nodes)
    (haz : Relation.ReflTransGen (childStep nodes) a z) :
    ∀ b ∈ nodes, Relation.ReflTransGen (childStep nodes) b z →
      Relation.ReflTransGen (childStep nodes) a b ∨
      Relation.ReflTransGen (childStep nodes) b a := by
  induction haz with
  | refl =>
    intro b _hb hbz
    right
    exact hbz
  | tail hsub hstep ih =>
    intro b hb hbz
    rcases hbz.cases_tail with hbeq | ⟨m', hbm', hm'step⟩
    · left
      rw [← hbeq]
      exact hsub.tail hstep
    · have hmn : _ ∈ nodes := rtg_mem nodes a _ ha hsub
      have hm'n : m' ∈ nodes := rtg_mem nodes b m' hb hbm'
      have : _ = m' := parent_unique nodes hnd _ m' _ hmn hm'n hstep hm'step
      rw [← this] at hbm'
      exact ih b hb hbm'

theorem root_reaches (nodes : List Node) (rank : String → Nat)
    (hr : ∀ m ∈ nodes, ∀ p ∈ nodes, parentKey m = p.id → parentKey m ≠ "" →
      rank p.id < rank m.id) :
    ∀ k m, m ∈ nodes → rank m.id ≤ k →
      ∃ r, r ∈ rootsOf nodes ∧ Relation.ReflTransGen (childStep nodes) r m := by
  intro k
  induction k using Nat.strong_induction_on with
  | _ k ih =>
    intro m hm hk
    by_cases hroot : parentKey m = "" ∨ hasId nodes (parentKey m) = false
    · exact ⟨m, (mem_rootsOf nodes m).2 ⟨hm, hroot⟩, Relation.ReflTransGen.refl⟩
    · push_neg at hroot
      obtain ⟨hne, hhas0⟩ := hroot
      have hhas : hasId nodes (parentKey m) = true := by simpa using hhas0
      rw [hasId, List.any_eq_true] at hhas
      obtain ⟨p, hp, hpid⟩ := hhas
      rw [beq_iff_eq] at hpid
      have hstep : childStep nodes p m :=
        (mem_childrenOf nodes p m).2 ⟨hm, hpid.symm, hne⟩
      have hrank : rank p.id < rank m.id := hr m hm p hp hpid.symm hne
      obtain ⟨r, hrr, hrp⟩ := ih (rank p.id) (by omega) p hp (le_refl _)
      exact ⟨r, hrr, hrp.tail hstep⟩

theorem root_unique (nodes : List Node) (hnd : (nodes.map Node.id).Nodup)
    (nx r1 r2 : Node) (h1 : r1 ∈ rootsOf nodes) (h2 : r2 ∈ rootsOf nodes)
    (hr1 : Relation.ReflTransGen (childStep nodes) r1 nx)
    (hr2 : Relation.ReflTransGen (childStep nodes) r2 nx) : r1 = r2 := by
  have h1n := ((mem_rootsOf nodes r1).1 h1).1
  have h2n := ((mem_rootsOf nodes r2).1 h2).1
  have hnotroot : ∀ r m : Node, r ∈ rootsOf nodes → m ∈ nodes → ¬ childStep nodes m r := by
    intro r m hrr hmn hstep
    obtain ⟨_, hrk, hrne⟩ := (mem_childrenOf nodes m r).1 hstep
    rcases ((mem_rootsOf nodes r).1 hrr).2 with he | hhas
    · exact hrne he
    · rw [hasId] at hhas
      have : nodes.any (fun n => n.id == parentKey r) = true :=
        List.any_eq_true.2 ⟨m, hmn, by rw [hrk]; exact beq_self_eq_true m.id⟩
      rw [this] at hhas
      exact absurd hhas (by simp)
  rcases rtg_comparable nodes hnd r1 nx h1n hr1 r2 h2n hr2 with h | h
  · rcases h.cases_tail with heq | ⟨m, hm, hstep⟩
    · exact heq.symm
    · exact absurd hstep (hnotroot r2 m h2 (rtg_mem nodes r1 m h1n hm))
  · rcases h.cases_tail with heq | ⟨m, hm, hstep⟩
    · exact heq
    · exact absurd hstep (hnotroot r1 m h1 (rtg_mem nodes r2 m h2n hm))

theorem sum_ones_unique {α : Type} (g : α → Nat) (P : α → Prop) :
    ∀ l : List α, l.Nodup → (∀ a ∈ l, ∀ b ∈ l, P a → P b → a = b) →
      (∀ a ∈ l, (P a → g a = 1) ∧ (¬ P a → g a = 0)) →
      ((∃ a ∈ l, P a) → (l.map g).sum = 1) ∧ ((∀ a ∈ l, ¬ P a) → (l.map g).sum = 0) := by
  intro l
  induction l with
  | nil =>
    intro _ _ _
    constructor
    · rintro ⟨a, ha, _⟩
      simp at ha
    · intro _
      simp
  | cons a t ih =>
    intro hnd huniq hg
    have hndt : t.Nodup := (List.nodup_cons.1 hnd).2
    have hat : a ∉ t := (List.nodup_cons.1 hnd).1
    have huniqt : ∀ b ∈ t, ∀ c ∈ t, P b → P c → b = c :=
      fun b hb c hc => huniq b (List.mem_cons_of_mem a hb) c (List.mem_cons_of_mem a hc)
    have hgt : ∀ b ∈ t, (P b → g b = 1) ∧ (¬ P b → g b = 0) :=
      fun b hb => hg b (List.mem_cons_of_mem a hb)
    constructor
    · rintro ⟨b, hb, hPb⟩
      rcases List.mem_cons.1 hb with hba | hbt
      · subst hba
        have hga : g b = 1 := (hg b (List.mem_cons_self b t)).1 hPb
        have hsum0 : (t.map g).sum = 0 := by
          refine (ih hndt huniqt hgt).2 ?_
          intro c hc hPc
          exact hat (huniq b (List.mem_cons_self b t) c (List.mem_cons_of_mem b hc) hPb hPc ▸ hc)
        simp [hga, hsum0]
      · have hsum1 : (t.map g).sum = 1 := (ih hndt huniqt hgt).1 ⟨b, hbt, hPb⟩
        have hga : g a = 0 := by
          refine (hg a (List.mem_cons_self a t)).2 ?_
          intro hPa
          exact hat (huniq a (List.mem_cons_self a t) b (List.mem_cons_of_mem a hbt) hPa hPb ▸ hbt)
        simp [hga, hsum1]
    · intro hnone
      have hga : g a = 0 := (hg a (List.mem_cons_self a t)).2 (hnone a (List.mem_cons_self a t))
      have hsum0 : (t.map g).sum = 0 :=
        (ih hndt huniqt hgt).2 (fun c hc => hnone c (List.mem_cons_of_mem a hc))
      simp [hga, hsum0]

theorem childStep_rank_lt (nodes : List Node) (rank : String → Nat)
    (hr : ∀ m ∈ nodes, ∀ p ∈ nodes, parentKey m = p.id → parentKey m ≠ "" →
      rank p.id < rank m.id)
    (n c : Node) (hn : n ∈ nodes) (hstep : childStep nodes n c) :
    rank n.id < rank c.id := by
  obtain ⟨hcn, hck, hcne⟩ := (mem_childrenOf nodes n c).1 hstep
  exact hr c hcn n hn hck hcne

theorem sibling_rtg_eq (nodes : List Node) (rank : String → Nat)
    (hnd : (nodes.map Node.id).Nodup)
    (hr : ∀ m ∈ nodes, ∀ p ∈ nodes, parentKey m = p.id → parentKey m ≠ "" →
      rank p.id < rank m.id)
    (n a b : Node) (hn : n ∈ nodes) (hastep : childStep nodes n a)
    (hbstep : childStep nodes n b)
    (h : Relation.ReflTransGen (childStep nodes) a b) : a = b := by
  have han : a ∈ nodes := ((mem_childrenOf nodes n a).1 hastep).1
  rcases h.cases_tail with heq | ⟨m, ham, hmb⟩
  · exact heq.symm
  · exfalso
    have hmn : m ∈ nodes := rtg_mem nodes a m han ham
    have hmen : m = n := parent_unique nodes hnd m n b hmn hn hmb hbstep
    rw [hmen] at ham
    have h1 : rank a.id ≤ rank n.id := rtg_rank_le nodes rank hr a n han ham
    have h2 : rank n.id < rank a.id := childStep_rank_lt nodes rank hr n a hn hastep
    omega

theorem children_rtg_unique (nodes : List Node) (rank : String → Nat)
    (hnd : (nodes.map Node.id).Nodup)
    (hr : ∀ m ∈ nodes, ∀ p ∈ nodes, parentKey m = p.id → parentKey m ≠ "" →
      rank p.id < rank m.id)
    (nx n : Node) (hn : n ∈ nodes) (c1 : Node) (h1 : c1 ∈ childrenOf nodes n)
    (c2 : Node) (h2 : c2 ∈ childrenOf nodes n)
    (hr1 : Relation.ReflTransGen (childStep nodes) c1 nx)
    (hr2 : Relation.ReflTransGen (childStep nodes) c2 nx) : c1 = c2 := by
  have h1n : c1 ∈ nodes := ((mem_childrenOf nodes n c1).1 h1).1
  have h2n : c2 ∈ nodes := ((mem_childrenOf nodes n c2).1 h2).1
  rcases rtg_comparable nodes hnd c1 nx h1n hr1 c2 h2n hr2 with h | h
  · exact sibling_rtg_eq nodes rank hnd hr n c1 c2 hn h1 h2 h
  · exact (sibling_rtg_eq nodes rank hnd hr n c2 c1 hn h2 h1 h).symm

theorem buildTree_unfold (nodes : List Node) (rank : String → Nat)
    (hr : ∀ m ∈ nodes, ∀ p ∈ nodes, parentKey m = p.id → parentKey m ≠ "" →
      rank p.id < rank m.id)
    (n : Node) (hn : n ∈ nodes) (fuel : Nat) (hfuel : boundOf nodes rank n.id ≤ fuel) :
    buildTree nodes fuel n = .mk n ((childrenOf nodes n).map (buildTree nodes (fuel - 1))) := by
  cases fuel with
  | zero =>
    rw [buildTree, childrenOf_eq_nil_of_bound_zero nodes rank hr n hn (by omega)]
    simp
  | succ f =>
    rw [buildTree]
    simp

theorem countForest_map_sum (x : String) (g : Node → TTree) (l : List Node) :
    countForest x (l.map g) = (l.map (fun c => countTree x (g c))).sum := by
  rw [countForest_eq_sum, List.map_map]
  rfl

theorem countTree_buildTree (nodes : List Node) (rank : String → Nat)
    (hnd : (nodes.map Node.id).Nodup)
    (hr : ∀ m ∈ nodes, ∀ p ∈ nodes, parentKey m = p.id → parentKey m ≠ "" →
      rank p.id < rank m.id)
    (nx : Node) (hnx : nx ∈ nodes) :
    ∀ b n, n ∈ nodes → boundOf nodes rank n.id ≤ b →
      ∀ fuel, boundOf nodes rank n.id ≤ fuel →
      (Relation.ReflTransGen (childStep nodes) n nx →
        countTree nx.id (buildTree nodes fuel n) = 1) ∧
      (¬ Relation.ReflTransGen (childStep nodes) n nx →
        countTree nx.id (buildTree nodes fuel n) = 0) := by
  intro b
  induction b using Nat.strong_induction_on with
  | _ b ih =>
    intro n hn hb fuel hfuel
    rw [buildTree_unfold nodes rank hr n hn fuel hfuel, countTree,
      countForest_map_sum nx.id (buildTree nodes (fuel - 1)) (childrenOf nodes n)]
    have hterm : ∀ c ∈ childrenOf nodes n,
        (Relation.ReflTransGen (childStep nodes) c nx →
          countTree nx.id (buildTree nodes (fuel - 1) c) = 1) ∧
        (¬ Relation.ReflTransGen (childStep nodes) c nx →
          countTree nx.id (buildTree nodes (fuel - 1) c) = 0) := by
      intro c hc
      have hcn : c ∈ nodes := ((mem_childrenOf nodes n c).1 hc).1
      have hclt : boundOf nodes rank c.id < boundOf nodes rank n.id :=
        boundOf_child_lt nodes rank hr n hn c hc
      exact ih (boundOf nodes rank c.id) (by omega) c hcn (le_refl _) (fuel - 1) (by omega)
    have hndn : nodes.Nodup := hnd.of_map _
    have hsum := sum_ones_unique (fun c => countTree nx.id (buildTree nodes (fuel - 1) c))
      (fun c => Relation.ReflTransGen (childStep nodes) c nx)
      (childrenOf nodes n) (hndn.filter _)
      (fun c1 hc1 c2 hc2 hp1 hp2 =>
        children_rtg_unique nodes rank hnd hr nx n hn c1 hc1 c2 hc2 hp1 hp2)
      hterm
    constructor
    · intro hrtg
      by_cases heq : n = nx
      · subst heq
        have hzero : ∀ c ∈ childrenOf nodes n, ¬ Relation.ReflTransGen (childStep nodes) c n := by
          intro c hc hcontra
          have hcn : c ∈ nodes := ((mem_childrenOf nodes n c).1 hc).1
          have h1 : rank c.id ≤ rank n.id := rtg_rank_le nodes rank hr c n hcn hcontra
          have h2 : rank n.id < rank c.id := childStep_rank_lt nodes rank hr n c hn hc
          omega
        rw [hsum.2 hzero]
        simp
      · have hne : n.id ≠ nx.id := by
          intro hide
          exact heq (List.inj_on_of_nodup_map hnd hn hnx hide)
        rcases hrtg.cases_head with heq2 | ⟨c, hstep, hcrtg⟩
        · exact absurd heq2 heq
        · rw [hsum.1 ⟨c, hstep, hcrtg⟩]
          simp [hne]
    · intro hnrtg
      have hne : n.id ≠ nx.id := by
        intro hide
        have : n = nx := List.inj_on_of_nodup_map hnd hn hnx hide
        exact hnrtg (this ▸ Relation.ReflTransGen.refl)
      have hzero : ∀ c ∈ childrenOf nodes n, ¬ Relation.ReflTransGen (childStep nodes) c nx := by
        intro c hc hcontra
        exact hnrtg (hcontra.head hc)
      rw [hsum.2 hzero]
      simp [hne]

theorem childPairsTree_buildTree (nodes : List Node) (rank : String → Nat)
    (hr : ∀ m ∈ nodes, ∀ p ∈ nodes, parentKey m = p.id → parentKey m ≠ "" →
      rank p.id < rank m.id) :
    ∀ b n, n ∈ nodes → boundOf nodes rank n.id ≤ b →
      ∀ fuel, boundOf nodes rank n.id ≤ fuel → ∀ q r : String,
      ((q, r) ∈ childPairsTree (buildTree nodes fuel n) ↔
        ∃ pq pr : Node, pq ∈ nodes ∧ pr ∈ childrenOf nodes pq ∧ pq.id = q ∧ pr.id = r ∧
          Relation.ReflTransGen (childStep nodes) n pq) := by
  intro b
  induction b using Nat.strong_induction_on with
  | _ b ih =>
    intro n hn hb fuel hfuel q r
    rw [buildTree_unfold nodes rank hr n hn fuel hfuel, childPairsTree]
    constructor
    · intro hmem
      rcases List.mem_append.1 hmem with hlevel | hdeep
      · obtain ⟨t, ht, hte⟩ := List.mem_map.1 hlevel
        obtain ⟨c, hc, hce⟩ := List.mem_map.1 ht
        refine ⟨n, c, hn, hc, ?_, ?_, Relation.ReflTransGen.refl⟩
        · exact (Prod.mk.injEq _ _ _ _ ▸ hte).1
        · have := (Prod.mk.injEq _ _ _ _ ▸ hte).2
          rw [← this, ← hce, rootId_buildTree]
      · rw [mem_childPairsForest_iff] at hdeep
        obtain ⟨t, ht, hq⟩ := hdeep
        obtain ⟨c, hc, hce⟩ := List.mem_map.1 ht
        have hcn : c ∈ nodes := ((mem_childrenOf nodes n c).1 hc).1
        have hclt : boundOf nodes rank c.id < boundOf nodes rank n.id :=
          boundOf_child_lt nodes rank hr n hn c hc
        rw [← hce] at hq
        obtain ⟨pq, pr, hpqn, hpr, hq1, hr1, hrtg⟩ :=
          (ih (boundOf nodes rank c.id) (by omega) c hcn (le_refl _) (fuel - 1)
            (by omega) q r).1 hq
        exact ⟨pq, pr, hpqn, hpr, hq1, hr1, hrtg.head hc⟩
    · rintro ⟨pq, pr, hpqn, hpr, hq1, hr1, hrtg⟩
      rcases hrtg.cases_head with heq | ⟨c, hstep, hcrtg⟩
      · subst heq
        refine List.mem_append.1 ?_ |>.elim (fun h => List.mem_append.2 (.inl h))
          (fun h => List.mem_append.2 (.inr h))
        refine List.mem_append.2 (.inl ?_)
        refine List.mem_map.2 ⟨buildTree nodes (fuel - 1) pr, List.mem_map.2 ⟨pr, hpr, rfl⟩, ?_⟩
        rw [rootId_buildTree, hq1, hr1]
      · refine List.mem_append.2 (.inr ?_)
        rw [mem_childPairsForest_iff]
        refine ⟨buildTree nodes (fuel - 1) c, List.mem_map.2 ⟨c, hstep, rfl⟩, ?_⟩
        have hcn : c ∈ nodes := ((mem_childrenOf nodes n c).1 hstep).1
        have hclt : boundOf nodes rank c.id < boundOf nodes rank n.id :=
          boundOf_child_lt nodes rank hr n hn c hstep
        exact (ih (boundOf nodes rank c.id) (by omega) c hcn (le_refl _) (fuel - 1)
          (by omega) q r).2 ⟨pq, pr, hpqn, hpr, hq1, hr1, hcrtg⟩

/-- C8 (amended): for a node list with distinct ids whose parent references
are acyclic — witnessed by any rank function that strictly increases from
parent to child, as the creation-order invariant of the store provides —
`treeData` produces a forest in which every node appears exactly once, the
(parent, child) edges are exactly the pairs whose child has a non-empty
parent key equal to the parent's id, and the roots are exactly the nodes
whose parent key is empty or refers to no node in the list. -/
theorem treeData_forest_characterization (nodes : List Node) (rank : String → Nat)
    (hnd : (nodes.map Node.id).Nodup)
    (hr : ∀ m ∈ nodes, ∀ p ∈ nodes, parentKey m = p.id → parentKey m ≠ "" →
      rank p.id < rank m.id) :
    (∀ n ∈ nodes, countForest n.id (treeData nodes) = 1) ∧
    (∀ p ∈ nodes, ∀ m ∈ nodes,
      ((p.id, m.id) ∈ childPairsForest (treeData nodes) ↔
        (parentKey m = p.id ∧ parentKey m ≠ ""))) ∧
    (∀ m ∈ nodes, (m.id ∈ (treeData nodes).map rootId ↔
      (parentKey m = "" ∨ hasId nodes (parentKey m) = false))) := by
  have hndn : nodes.Nodup := hnd.of_map _
  have hroots_nd : (rootsOf nodes).Nodup := hndn.filter _
  refine ⟨?_, ?_, ?_⟩
  · intro n hn
    rw [treeData, countForest_sortForest, countForest_map_sum]
    have hterm : ∀ s ∈ rootsOf nodes,
        (Relation.ReflTransGen (childStep nodes) s n →
          countTree n.id (buildTree nodes nodes.length s) = 1) ∧
        (¬ Relation.ReflTransGen (childStep nodes) s n →
          countTree n.id (buildTree nodes nodes.length s) = 0) := by
      intro s hs
      have hsn : s ∈ nodes := ((mem_rootsOf nodes s).1 hs).1
      exact countTree_buildTree nodes rank hnd hr n hn (boundOf nodes rank s.id) s hsn
        (le_refl _) nodes.length (boundOf_le_length nodes rank s.id)
    have hsum := sum_ones_unique (fun s => countTree n.id (buildTree nodes nodes.length s))
      (fun s => Relation.ReflTransGen (childStep nodes) s n)
      (rootsOf nodes) hroots_nd
      (fun r1 hr1 r2 hr2 hp1 hp2 => root_unique nodes hnd n r1 r2 hr1 hr2 hp1 hp2)
      hterm
    obtain ⟨r, hrr, hrn⟩ := root_reaches nodes rank hr (rank n.id) n hn (le_refl _)
    exact hsum.1 ⟨r, hrr, hrn⟩
  · intro p hp m hm
    rw [treeData, mem_childPairsForest_sortForest, mem_childPairsForest_iff]
    constructor
    · rintro ⟨t, ht, hq⟩
      obtain ⟨s, hs, hse⟩ := List.mem_map.1 ht
      have hsn : s ∈ nodes := ((mem_rootsOf nodes s).1 hs).1
      rw [← hse] at hq
      obtain ⟨pq, pr, hpqn, hpr, hq1, hr1, _⟩ :=
        (childPairsTree_buildTree nodes rank hr (boundOf nodes rank s.id) s hsn (le_refl _)
          nodes.length (boundOf_le_length nodes rank s.id) p.id m.id).1 hq
      have hpq : pq = p := List.inj_on_of_nodup_map hnd hpqn hp hq1
      have hprn : pr ∈ nodes := ((mem_childrenOf nodes pq pr).1 hpr).1
      have hprm : pr = m := List.inj_on_of_nodup_map hnd hprn hm hr1
      rw [hpq, hprm] at hpr
      obtain ⟨_, hk, hne⟩ := (mem_childrenOf nodes p m).1 hpr
      exact ⟨hk, hne⟩
    · rintro ⟨hk, hne⟩
      have hstep : m ∈ childrenOf nodes p := (mem_childrenOf nodes p m).2 ⟨hm, hk, hne⟩
      obtain ⟨r, hrr, hrp⟩ := root_reaches nodes rank hr (rank p.id) p hp (le_refl _)
      have hrn : r ∈ nodes := ((mem_rootsOf nodes r).1 hrr).1
      refine ⟨buildTree nodes nodes.length r, List.mem_map.2 ⟨r, hrr, rfl⟩, ?_⟩
      exact (childPairsTree_buildTree nodes rank hr (boundOf nodes rank r.id) r hrn (le_refl _)
        nodes.length (boundOf_le_length nodes rank r.id) p.id m.id).2
        ⟨p, m, hp, hstep, rfl, rfl, hrp⟩
  · intro m hm
    rw [treeData, mem_map_rootId_sortForest]
    constructor
    · intro h
      obtain ⟨t, ht, hte⟩ := List.mem_map.1 h
      obtain ⟨s, hs, hse⟩ := List.mem_map.1 ht
      rw [← hse, rootId_buildTree] at hte
      have hsn : s ∈ nodes := ((mem_rootsOf nodes s).1 hs).1
      have : s = m := List.inj_on_of_nodup_map hnd hsn hm hte
      rw [this] at hs
      exact ((mem_rootsOf nodes m).1 hs).2
    · intro h
      refine List.mem_map.2 ⟨buildTree nodes nodes.length m,
        List.mem_map.2 ⟨m, (mem_rootsOf nodes m).2 ⟨hm, h⟩, rfl⟩, ?_⟩
      rw [rootId_buildTree]

/-- C8 counterexample: a single node whose `parent_id` is its own id is a
finite list with distinct ids, yet `treeData` attaches it to its own
children list, so the returned forest is empty and the node appears zero
times instead of exactly once. -/
theorem treeData_cycle_counterexample :
    (([⟨"a", some "a", "cyc", "0001-cyc.vhdx", none, none, 0, .normal, false⟩] : List Node).map
      Node.id).Nodup ∧
    countForest "a"
      (treeData [⟨"a", some "a", "cyc", "0001-cyc.vhdx", none, none, 0, .normal, false⟩]) = 0 := by
  constructor
  · decide
  · rfl

/-- Concrete check of `treeData_forest_characterization` on a base node and
one diff child: the child appears exactly once, the (base, child) edge is in
the forest, and the base is the unique root. -/
theorem treeData_forest_characterization_witness :
    countForest "c"
      (treeData [⟨"b", none, "base", "0001-base.vhdx", none, none, 1, .normal, true⟩,
                 ⟨"c", some "b", "child", "0002-child.vhdx", none, none, 2, .normal, true⟩]) = 1 ∧
    (("b", "c") ∈ childPairsForest
      (treeData [⟨"b", none, "base", "0001-base.vhdx", none, none, 1, .normal, true⟩,
                 ⟨"c", some "b", "child", "0002-child.vhdx", none, none, 2, .normal, true⟩]) ↔
      (parentKey ⟨"c", some "b", "child", "0002-child.vhdx", none, none, 2, .normal, true⟩ = "b" ∧
       parentKey ⟨"c", some "b", "child", "0002-child.vhdx", none, none, 2, .normal, true⟩ ≠ "")) ∧
    ("b" ∈ (treeData [⟨"b", none, "base", "0001-base.vhdx", none, none, 1, .normal, true⟩,
                      ⟨"c", some "b", "child", "0002-child.vhdx", none, none, 2, .normal, true⟩]).map
        rootId ↔
      (parentKey ⟨"b", none, "base", "0001-base.vhdx", none, none, 1, .normal, true⟩ = "" ∨
       hasId [⟨"b", none, "base", "0001-base.vhdx", none, none, 1, .normal, true⟩,
              ⟨"c", some "b", "child", "0002-child.vhdx", none, none, 2, .normal, true⟩]
         (parentKey ⟨"b", none, "base", "0001-base.vhdx", none, none, 1, .normal, true⟩) =
         false)) := by
  have h := treeData_forest_characterization
    [⟨"b", none, "base", "0001-base.vhdx", none, none, 1, .normal, true⟩,
     ⟨"c", some "b", "child", "0002-child.vhdx", none, none, 2, .normal, true⟩]
    (fun s => if s = "b" then 0 else 1) (by decide) (by decide)
  refine ⟨?_, ?_, ?_⟩
  · exact h.1 ⟨"c", some "b", "child", "0002-child.vhdx", none, none, 2, .normal, true⟩ (by simp)
  · exact h.2.1 ⟨"b", none, "base", "0001-base.vhdx", none, none, 1, .normal, true⟩ (by simp)
      ⟨"c", some "b", "child", "0002-child.vhdx", none, none, 2, .normal, true⟩ (by simp)
  · exact h.2.2 ⟨"b", none, "base", "0001-base.vhdx", none, none, 1, .normal, true⟩ (by simp)

theorem sortedB_cons_cons (a b : TTree) (r : List TTree) :
    sortedByCreatedB (a :: b :: r) =
      ((rootCreated a ≤ rootCreated b : Bool) && sortedByCreatedB (b :: r)) := rfl

theorem sortedB_insert (t : TTree) (l : List TTree) (h : sortedByCreatedB l = true) :
    sortedByCreatedB (insertByCreated t l) = true := by
  induction l with
  | nil => rfl
  | cons u us ih =>
    rw [insertByCreated]
    by_cases hle : rootCreated t ≤ rootCreated u
    · rw [if_pos hle, sortedB_cons_cons, h]
      simp [hle]
    · rw [if_neg hle]
      have hut : rootCreated u ≤ rootCreated t := Nat.le_of_not_le hle
      cases us with
      | nil =>
        rw [insertByCreated, sortedB_cons_cons]
        simp [hut, sortedByCreatedB]
      | cons v vs =>
        have huv : (rootCreated u ≤ rootCreated v : Bool) = true := by
          rw [sortedB_cons_cons, Bool.and_eq_true] at h
          exact h.1
        have hvvs : sortedByCreatedB (v :: vs) = true := by
          rw [sortedB_cons_cons, Bool.and_eq_true] at h
          exact h.2
        rw [insertByCreated]
        by_cases h2 : rootCreated t ≤ rootCreated v
        · rw [if_pos h2, sortedB_cons_cons, sortedB_cons_cons, hvvs]
          simp [hut, h2]
        · rw [if_neg h2]
          have htail : sortedByCreatedB (v :: insertByCreated t vs) = true := by
            have := ih hvvs
            rw [insertByCreated, if_neg h2] at this
            exact this
          rw [sortedB_cons_cons, htail]
          simp [huv]

theorem sortedB_insort (l : List TTree) : sortedByCreatedB (insortByCreated l) = true := by
  induction l with
  | nil => rfl
  | cons t ts ih => exact sortedB_insert t (insortByCreated ts) ih

theorem levelsSortedEach_iff_all (l : List TTree) :
    levelsSortedEach l = true ↔ ∀ t ∈ l, levelsSortedTree t = true := by
  induction l with
  | nil => simp [levelsSortedEach]
  | cons t ts ih =>
    rw [levelsSortedEach, Bool.and_eq_true, ih]
    constructor
    · rintro ⟨h1, h2⟩ u hu
      rcases List.mem_cons.1 hu with hu | hu
      · rw [hu]; exact h1
      · exact h2 u hu
    · intro h
      exact ⟨h t (List.mem_cons_self t ts), fun u hu => h u (List.mem_cons_of_mem t hu)⟩

mutual

theorem levelsSortedTree_sortTree : ∀ t : TTree, levelsSortedTree (sortTree t) = true
  | .mk n cs => by
    rw [sortTree, levelsSortedTree, Bool.and_eq_true]
    refine ⟨sortedB_insort (sortEach cs), ?_⟩
    rw [levelsSortedEach_iff_all]
    intro u hu
    have hu2 : u ∈ sortEach cs := (insortByCreated_perm (sortEach cs)).subset hu
    exact (levelsSortedEach_iff_all (sortEach cs)).1 (levelsSortedEach_sortEach cs) u hu2

theorem levelsSortedEach_sortEach : ∀ l : List TTree, levelsSortedEach (sortEach l) = true
  | [] => rfl
  | t :: ts => by
    rw [sortEach, levelsSortedEach, levelsSortedTree_sortTree t, levelsSortedEach_sortEach ts]
    rfl

end

/-- C9: in the forest produced by `treeData`, every sibling list at every
level — the returned roots and each node's children list at any depth — is
sorted in ascending order of the nodes' `created_at` timestamps. -/
theorem treeData_siblings_sorted (nodes : List Node) :
    levelsSortedForest (treeData nodes) = true := by
  rw [treeData, sortForest, levelsSortedForest, Bool.and_eq_true]
  refine ⟨sortedB_insort _, ?_⟩
  rw [levelsSortedEach_iff_all]
  intro u hu
  have hu2 : u ∈ sortEach ((rootsOf nodes).map (buildTree nodes nodes.length)) :=
    (insortByCreated_perm _).subset hu
  exact (levelsSortedEach_iff_all _).1 (levelsSortedEach_sortEach _) u hu2

/-! ## UI selection invariant (C10)

Translated from `src/App.tsx` (selection effect, identical in the variants
that track `workspaceReady`):

```
if (!workspaceReady || !nodes.length) { setSelectedNode(""); return; }
if (!selectedNode) setSelectedNode(nodes[0].id);
else if (!nodes.some((n) => n.id === selectedNode)) setSelectedNode(nodes[0].id);
```

The effect re-runs until the selection is stable; `selectAfterUpdate`
returns the stable value it leaves behind. -/

/-- Id of the first node of the list (`nodes[0].id`), or `""` on an empty
list (the effect never reads `nodes[0]` when the list is empty). -/
def firstId (nodes : List Node) : String :=
  match nodes with
  | [] => ""
  | n :: _ => n.id

/-- Translation of the selection effect: clear the selection when the
workspace is not ready or no nodes exist, adopt the first node when nothing
is selected, replace a selection that no longer resolves by the first node,
and otherwise keep the selection. -/
def selectAfterUpdate (workspaceReady : Bool) (nodes : List Node) (selected : String) : String :=
  if !workspaceReady || nodes.isEmpty then ""
  else if selected = "" then firstId nodes
  else if !(nodes.any (fun n => n.id == selected)) then firstId nodes
  else selected

/-- C10: after every node-list update, the selection is empty exactly when
the workspace is not ready or the list is empty; otherwise it is the id of a
node in the current list, and a stale selection (one naming no current node)
is always replaced by the first node's id.  Node ids are opaque non-empty
identifiers. -/
theorem selected_node_always_valid (workspaceReady : Bool) (nodes : List Node)
    (selected : String) (hids : ∀ n ∈ nodes, n.id ≠ "") :
    (selectAfterUpdate workspaceReady nodes selected = "" ↔
      (workspaceReady = false ∨ nodes = [])) ∧
    (workspaceReady = true → nodes ≠ [] →
      selectAfterUpdate workspaceReady nodes selected ∈ nodes.map Node.id) ∧
    (workspaceReady = true → nodes ≠ [] → selected ∉ nodes.map Node.id →
      selectAfterUpdate workspaceReady nodes selected = firstId nodes) := by
  cases workspaceReady with
  | false =>
    refine ⟨?_, ?_, ?_⟩
    · simp [selectAfterUpdate]
    · intro h; cases h
    · intro h; cases h
  | true =>
    cases nodes with
    | nil =>
      refine ⟨?_, ?_, ?_⟩
      · simp [selectAfterUpdate]
      · intro _ h; exact absurd rfl h
      · intro _ h; exact absurd rfl h
    | cons n0 rest =>
      have hfirst : firstId (n0 :: rest) = n0.id := rfl
      have hne0 : n0.id ≠ "" := hids n0 (List.mem_cons_self n0 rest)
      refine ⟨?_, ?_, ?_⟩
      · constructor
        · intro h
          exfalso
          rw [selectAfterUpdate] at h
          simp only [Bool.not_true, List.isEmpty_cons, Bool.false_or] at h
          by_cases hsel : selected = ""
          · rw [if_pos hsel] at h
            exact hne0 (hfirst ▸ h)
          · rw [if_neg hsel] at h
            by_cases hany : ((n0 :: rest).any (fun n => n.id == selected)) = true
            · rw [hany] at h
              simp only [Bool.not_true, Bool.false_eq_true, if_false] at h
              exact hsel h
            · rw [Bool.not_eq_true] at hany
              rw [hany] at h
              simp only [Bool.not_false, if_true] at h
              exact hne0 (hfirst ▸ h)
        · rintro (h | h)
          · cases h
          · cases h
      · intro _ _
        rw [selectAfterUpdate]
        simp only [Bool.not_true, List.isEmpty_cons, Bool.false_or]
        by_cases hsel : selected = ""
        · rw [if_pos hsel, hfirst]
          exact List.mem_map.2 ⟨n0, List.mem_cons_self n0 rest, rfl⟩
        · rw [if_neg hsel]
          by_cases hany : ((n0 :: rest).any (fun n => n.id == selected)) = true
          · rw [hany]
            simp only [Bool.not_true, Bool.false_eq_true, if_false]
            obtain ⟨m, hm, hmid⟩ := List.any_eq_true.1 hany
            rw [beq_iff_eq] at hmid
            exact List.mem_map.2 ⟨m, hm, hmid⟩
          · rw [Bool.not_eq_true] at hany
            rw [hany]
            simp only [Bool.not_false, if_true, hfirst]
            exact List.mem_map.2 ⟨n0, List.mem_cons_self n0 rest, rfl⟩
      · intro _ _ hstale
        rw [selectAfterUpdate]
        simp only [Bool.not_true, List.isEmpty_cons, Bool.false_or]
        by_cases hsel : selected = ""
        · rw [if_pos hsel]
          simp
        · rw [if_neg hsel]
          have hany : ((n0 :: rest).any (fun n => n.id == selected)) = false := by
            rw [← Bool.not_eq_true, List.any_eq_true]
            rintro ⟨m, hm, hmid⟩
            rw [beq_iff_eq] at hmid
            exact hstale (List.mem_map.2 ⟨m, hm, hmid⟩)
          rw [hany]
          simp

/-- Concrete check of `selected_node_always_valid`: with the workspace ready
and two nodes present, a stale selection `"z"` is replaced by the first
node's id, which is non-empty and present. -/
theorem selected_node_always_valid_witness :
    (selectAfterUpdate true
      [⟨"a", none, "base", "p1", none, none, 1, .normal, true⟩,
       ⟨"b", some "a", "child", "p2", none, none, 2, .normal, true⟩] "z" = "" ↔
      ((true : Bool) = false ∨
        ([⟨"a", none, "base", "p1", none, none, 1, .normal, true⟩,
          ⟨"b", some "a", "child", "p2", none, none, 2, .normal, true⟩] : List Node) = [])) ∧
    ((true : Bool) = true →
      ([⟨"a", none, "base", "p1", none, none, 1, .normal, true⟩,
        ⟨"b", some "a", "child", "p2", none, none, 2, .normal, true⟩] : List Node) ≠ [] →
      selectAfterUpdate true
        [⟨"a", none, "base", "p1", none, none, 1, .normal, true⟩,
         ⟨"b", some "a", "child", "p2", none, none, 2, .normal, true⟩] "z" ∈
        ([⟨"a", none, "base", "p1", none, none, 1, .normal, true⟩,
          ⟨"b", some "a", "child", "p2", none, none, 2, .normal, true⟩] : List Node).map
          Node.id) ∧
    ((true : Bool) = true →
      ([⟨"a", none, "base", "p1", none, none, 1, .normal, true⟩,
        ⟨"b", some "a", "child", "p2", none, none, 2, .normal, true⟩] : List Node) ≠ [] →
      "z" ∉ ([⟨"a", none, "base", "p1", none, none, 1, .normal, true⟩,
        ⟨"b", some "a", "child", "p2", none, none, 2, .normal, true⟩] : List Node).map Node.id →
      selectAfterUpdate true
        [⟨"a", none, "base", "p1", none, none, 1, .normal, true⟩,
         ⟨"b", some "a", "child", "p2", none, none, 2, .normal, true⟩] "z" =
        firstId [⟨"a", none, "base", "p1", none, none, 1, .normal, true⟩,
                 ⟨"b", some "a", "child", "p2", none, none, 2, .normal, true⟩]) :=
  selected_node_always_valid true
    [⟨"a", none, "base", "p1", none, none, 1, .normal, true⟩,
     ⟨"b", some "a", "child", "p2", none, none, 2, .normal, true⟩] "z" (by decide)

end LayeredSystem
